import Mathlib

/-
Verification model of the goVarFloat repository (package varfloat).

The package encodes float64 values as variable-length byte sequences:
a zero value is the single reserved byte 0x00, and a nonzero value is
encoded as two unsigned LEB128 varints, a header carrying the
zigzag-encoded binary exponent plus the sign bit, and a quantized
mantissa.  A bounded-integer codec and a bit-width advisor are layered
on top.

Modelling conventions, used consistently below:
  - Byte buffers are `List Nat` whose elements are below 256.
  - Go uint64 arithmetic is modelled on `Nat` with explicit reduction
    modulo 2^64; Go int64 values are `Int` with explicit wrapping where
    the Go code can wrap.
  - float64 values are modelled by exact rational numbers (every finite
    float64 is a rational), plus explicit NaN and infinity markers where
    a claim needs them.  The rational pipeline is exact arithmetic: it
    agrees with the float64 computation at every input where the float64
    operations round nothing, which holds at each concrete input used in
    the closed theorems below.
  - The distinct error values produced with errors.New in varfloat.go are
    modelled by the enumeration `VFError`.
-/

attribute [local semireducible] Rat.mul Rat.add Rat.inv Rat.sub

namespace VarFloat

/-- Conversion of a Go integer value to uint64: the unsigned residue of the
integer modulo 2^64. -/
def toU64 (x : ℤ) : ℕ := (x % (2 ^ 64 : ℤ)).toNat

/-- Reinterpretation of an unsigned 64-bit residue as a signed int64 value
(two-complement). -/
def toI64 (n : ℕ) : ℤ := if n < 2 ^ 63 then (n : ℤ) else (n : ℤ) - 2 ^ 64

/-- zigZagEncode from varfloat.go (lines 955-959):
uint64(x shifted left once) xor uint64(x arithmetically shifted right 63).
The arithmetic right shift by 63 of an int64 is flooring division by 2^63. -/
def zigZagEncode (x : ℤ) : ℕ := toU64 (x * 2) ^^^ toU64 (x.fdiv (2 ^ 63))

/-- zigZagDecode from varfloat.go (lines 961-965):
int64((u shifted right once) xor uint64(-(int64(u and 1)))). -/
def zigZagDecode (u : ℕ) : ℤ := toI64 ((u / 2) ^^^ toU64 (-((u % 2 : ℕ) : ℤ)))

/-- Xor with a block of 64 ones is complement inside that block. -/
theorem xor_two_pow_sub_one : ∀ (k n : ℕ), n < 2 ^ k → n ^^^ (2 ^ k - 1) = 2 ^ k - 1 - n := by
  intro k
  induction k with
  | zero =>
    intro n h
    interval_cases n
    decide
  | succ k ih =>
    intro n h
    have hrw : (2 : ℕ) ^ (k + 1) - 1 = Nat.bit true (2 ^ k - 1) := by
      simp [Nat.bit]
      have : (0 : ℕ) < 2 ^ k := Nat.pos_pow_of_pos _ (by norm_num)
      omega
    have hn : Nat.bit (n.testBit 0) (n >>> 1) = n := Nat.bit_testBit_zero_shiftRight_one n
    have hdiv : n >>> 1 = n / 2 := Nat.shiftRight_one n
    have hhalf : n / 2 < 2 ^ k := by
      have := Nat.pow_succ 2 k
      omega
    calc n ^^^ (2 ^ (k + 1) - 1)
        = Nat.bit (n.testBit 0) (n >>> 1) ^^^ Nat.bit true (2 ^ k - 1) := by rw [hn, hrw]
      _ = Nat.bit (bne (n.testBit 0) true) (n >>> 1 ^^^ (2 ^ k - 1)) := Nat.xor_bit ..
      _ = Nat.bit (!(n.testBit 0)) (2 ^ k - 1 - n / 2) := by
          rw [hdiv, ih (n / 2) hhalf]
          cases n.testBit 0 <;> rfl
      _ = 2 ^ (k + 1) - 1 - n := by
          have hbit : Nat.bit (n.testBit 0) (n / 2) = n := by rw [← hdiv, hn]
          have hp : (0 : ℕ) < 2 ^ k := Nat.pos_pow_of_pos _ (by norm_num)
          have hps : (2 : ℕ) ^ (k + 1) = 2 * 2 ^ k := by rw [Nat.pow_succ]; ring
          cases hb : n.testBit 0 <;>
            simp [Nat.bit, hb] at hbit ⊢ <;> omega

/-- On nonnegative int64 values the zigzag code is the doubled value. -/
theorem zigZagEncode_nonneg (x : ℤ) (h0 : 0 ≤ x) (h1 : x < 2 ^ 63) :
    zigZagEncode x = (2 * x).toNat := by
  unfold zigZagEncode
  have hfd : x.fdiv (2 ^ 63) = 0 := by
    rw [Int.fdiv_eq_ediv _ (by norm_num)]
    omega
  have h2 : toU64 (x * 2) = (2 * x).toNat := by
    unfold toU64
    omega
  rw [hfd, h2]
  unfold toU64
  norm_num

/-- On negative int64 values the zigzag code is -2x - 1. -/
theorem zigZagEncode_neg (x : ℤ) (h0 : -(2 ^ 63) ≤ x) (h1 : x < 0) :
    zigZagEncode x = (-(2 * x) - 1).toNat := by
  unfold zigZagEncode
  have hfd : x.fdiv (2 ^ 63) = -1 := by
    rw [Int.fdiv_eq_ediv _ (by norm_num)]
    omega
  have h2 : toU64 (x * 2) = (2 * x + 2 ^ 64).toNat := by
    unfold toU64
    omega
  have h3 : toU64 (-1) = 2 ^ 64 - 1 := by decide
  rw [hfd, h2, h3]
  have hlt : (2 * x + 2 ^ 64).toNat < 2 ^ 64 := by omega
  rw [xor_two_pow_sub_one 64 _ hlt]
  omega

/-- C3: for every int64 value x, including the minimal one,
zigZagDecode (zigZagEncode x) = x. -/
theorem C3_zigzag_roundtrip (x : ℤ) (h0 : -(2 ^ 63) ≤ x) (h1 : x < 2 ^ 63) :
    zigZagDecode (zigZagEncode x) = x := by
  rcases le_or_lt 0 x with hx | hx
  · rw [zigZagEncode_nonneg x hx h1]
    unfold zigZagDecode
    have hmod : (2 * x).toNat % 2 = 0 := by omega
    have hdiv : (2 * x).toNat / 2 = x.toNat := by omega
    rw [hmod, hdiv]
    have hz : toU64 (-((0 : ℕ) : ℤ)) = 0 := by decide
    norm_num
    unfold toU64
    norm_num
    unfold toI64
    have : x.toNat < 2 ^ 63 := by omega
    rw [if_pos this]
    omega
  · rw [zigZagEncode_neg x h0 hx]
    unfold zigZagDecode
    have hmod : (-(2 * x) - 1).toNat % 2 = 1 := by omega
    have hdiv : (-(2 * x) - 1).toNat / 2 = (-x - 1).toNat := by omega
    rw [hmod, hdiv]
    have hone : toU64 (-((1 : ℕ) : ℤ)) = 2 ^ 64 - 1 := by decide
    rw [hone]
    have hlt : (-x - 1).toNat < 2 ^ 64 := by omega
    rw [xor_two_pow_sub_one 64 _ hlt]
    unfold toI64
    have hge : ¬ (2 ^ 64 - 1 - (-x - 1).toNat < 2 ^ 63) := by omega
    rw [if_neg hge]
    omega

/-- Witness for C3 at the minimal int64 value. -/
theorem C3_zigzag_roundtrip_witness :
    -(2 ^ 63 : ℤ) ≤ -(2 ^ 63) ∧ -(2 ^ 63 : ℤ) < 2 ^ 63 ∧
      zigZagDecode (zigZagEncode (-(2 ^ 63))) = -(2 ^ 63) :=
  ⟨by decide, by decide, C3_zigzag_roundtrip (-(2 ^ 63)) (by decide) (by decide)⟩

/-- binary.PutUvarint, written with explicit fuel so that it is structurally
recursive; ten bytes are enough for any value below 2^64, which every call
site guarantees, so the fuel never runs out on reachable inputs. -/
def putUvarintAux : ℕ → ℕ → List ℕ
  | 0, x => [x % 128]
  | fuel + 1, x =>
    if x < 128 then [x]
    else (x % 128 + 128) :: putUvarintAux fuel (x / 128)

/-- Standard LEB128 encoding of an unsigned 64-bit value (binary.PutUvarint):
seven payload bits per byte, continuation flag in the high bit. -/
def putUvarint (x : ℕ) : List ℕ := putUvarintAux 10 x

/-- binary.Uvarint; the parameters are the remaining bytes, the byte index i,
the shift s = 7 i and the accumulator.  `none` models every case in which the
Go function returns a count n with n ≤ 0: a buffer that ends before a
terminating byte, a value longer than ten bytes, and a tenth byte above 1. -/
def uvarintAux : List ℕ → ℕ → ℕ → ℕ → Option (ℕ × ℕ)
  | [], _, _, _ => none
  | b :: rest, i, s, x =>
    if i = 10 then none
    else if b < 128 then
      if i = 9 ∧ 1 < b then none
      else some ((x + b * 2 ^ s) % 2 ^ 64, i + 1)
    else uvarintAux rest (i + 1) (s + 7) ((x + b % 128 * 2 ^ s) % 2 ^ 64)

/-- Standard LEB128 decoding of an unsigned 64-bit value (binary.Uvarint),
returning the value and the number of bytes consumed. -/
def uvarint (b : List ℕ) : Option (ℕ × ℕ) := uvarintAux b 0 0 0

/-- The floor of a rational number. -/
def qfloor (q : ℚ) : ℤ := q.num.fdiv q.den

/-- math.Round: round to the nearest integer, halves away from zero. -/
def roundHalfAway (q : ℚ) : ℤ :=
  if 0 ≤ q then qfloor (q + 1 / 2) else -(qfloor (-q + 1 / 2))

/-- The loop body of math.Frexp on a positive rational: halve or double the
mantissa until it lies in [1/2, 1), tracking the exponent.  Written with
structural fuel; the fuel chosen in `frexpQ` suffices for every rational,
and the closed theorems below evaluate it on concrete inputs. -/
def frexpAux : ℕ → ℚ → ℤ → ℚ × ℤ
  | 0, m, e => (m, e)
  | fuel + 1, m, e =>
    if m < 1 / 2 then frexpAux fuel (2 * m) (e - 1)
    else if 1 ≤ m then frexpAux fuel (m / 2) (e + 1)
    else (m, e)

/-- math.Frexp on a positive rational value v: returns (m, e) with
v = m * 2 ^ e and m in [1/2, 1). -/
def frexpQ (v : ℚ) : ℚ × ℤ := frexpAux (v.num.natAbs + v.den) v 0

/-- frexpAux preserves the represented value m * 2 ^ e. -/
theorem frexpAux_invariant : ∀ (fuel : ℕ) (m : ℚ) (e : ℤ),
    (frexpAux fuel m e).1 * (2 : ℚ) ^ (frexpAux fuel m e).2 = m * (2 : ℚ) ^ e := by
  intro fuel
  induction fuel with
  | zero => intro m e; rfl
  | succ fuel ih =>
    intro m e
    unfold frexpAux
    split
    · rw [ih]
      rw [zpow_sub_one₀ (by norm_num)]
      ring
    · split
      · rw [ih]
        rw [zpow_add_one₀ (by norm_num)]
        ring
      · rfl

/-- The error values created with errors.New in varfloat.go, plus
io.ErrUnexpectedEOF, as an enumeration. -/
inductive VFError where
  | invalidBitWidth
  | invalidBounds
  | valueOutOfRange
  | truncated
  | invalidHeader
  | invalidMantissa
deriving DecidableEq

/-- A Go (value, error) result pair: either the value or an error. -/
inductive VFRes (α : Type) where
  | ok (val : α)
  | err (e : VFError)
deriving DecidableEq

/-- Config from varfloat.go: the mantissa bit count used for quantization. -/
structure Config where
  MantissaBits : ℤ
deriving DecidableEq

/-- NewConfig: accepts only bit counts in [0, 52]. -/
def NewConfig (bits : ℤ) : VFRes Config :=
  if bits < 0 ∨ 52 < bits then .err .invalidBitWidth else .ok ⟨bits⟩

/-- mantMaxForBits from varfloat.go: (1 shifted left bits) - 1 as a Go int,
0 if bits ≤ 0, with bits capped at 63.  The Go expression wraps through
int64 arithmetic at bits = 63, which the explicit toI64 reductions model;
for bits in [0, 52] it is exactly 2 ^ bits - 1. -/
def mantMaxForBits (bits : ℤ) : ℤ :=
  if bits ≤ 0 then 0
  else
    let b : ℕ := if 63 ≤ bits then 63 else bits.toNat
    toI64 (toU64 (toI64 (toU64 (2 ^ b)) - 1))

/-- A float64 input value: an exact rational (every finite float64 is one),
NaN, or a signed infinity. -/
inductive FloatVal where
  | q (v : ℚ)
  | nan
  | inf (neg : Bool)
deriving DecidableEq

/-- The Go test v < 0 on a float64: false for NaN, true for negative
rationals and negative infinity. -/
def FloatVal.isNegV : FloatVal → Bool
  | .q x => decide (x < 0)
  | .inf neg => neg
  | .nan => false

/-- The assignment v = -v executed under v < 0: afterwards the value is its
absolute value. -/
def FloatVal.absV : FloatVal → FloatVal
  | .q x => .q |x|
  | .inf _ => .inf false
  | .nan => .nan

/-- math.Frexp extended to the special values exactly as documented for Go:
Frexp of an infinity is (that infinity, 0) and Frexp of NaN is (NaN, 0). -/
def frexpFV : FloatVal → FloatVal × ℤ
  | .q x => ((FloatVal.q (frexpQ x).1), (frexpQ x).2)
  | .inf neg => (.inf neg, 0)
  | .nan => (.nan, 0)

/-- The statement m = m * 2 executed on a float64. -/
def FloatVal.double : FloatVal → FloatVal
  | .q x => .q (2 * x)
  | .inf neg => .inf neg
  | .nan => .nan

/-- uint64(math.Round((m - 1) * float64(mantMax))) from Config.Append.  For a
rational m this is exact; rounding NaN or an infinity and converting to
uint64 is implementation-defined in Go, modelled as 0 here — no claim below
depends on that byte value. -/
def mantOf (m : FloatVal) (mantMax : ℤ) : ℕ :=
  match m with
  | .q x => (roundHalfAway ((x - 1) * (mantMax : ℚ))).toNat
  | .nan => 0
  | .inf _ => 0

/-- Config.Append from varfloat.go (lines 353-394): the zero value encodes as
the single reserved byte 0x00; a nonzero value encodes its sign, its
zigzag-encoded adjusted exponent and its quantized mantissa as
varint(header) followed by varint(mant), with
header = ((zigzag(e) + 1) shifted left 1) or sign, computed in uint64. -/
def Config.Append (c : Config) (dst : List ℕ) (v : FloatVal) : List ℕ :=
  if v = FloatVal.q 0 then dst ++ [0]
  else
    let sign : ℕ := if v.isNegV then 1 else 0
    let me := frexpFV v.absV
    let m := me.1.double
    let e := me.2 - 1
    let mantMax := mantMaxForBits c.MantissaBits
    let mant : ℕ := if 0 < mantMax then mantOf m mantMax else 0
    let ez := zigZagEncode e
    let header := ((ez + 1) * 2 + sign) % 2 ^ 64
    dst ++ (putUvarint header ++ putUvarint mant)

/-- Config.Consume from varfloat.go (lines 615-663): an empty buffer is a
truncation error; a leading zero byte decodes to the zero value with one
byte consumed; otherwise the header varint is read, the reserved
header-shifted-right-once = 0 combination is rejected, the mantissa varint
is read, and the value m * 2 ^ e with m = (1 + mant / mantMax) / 2 is
rebuilt and signed. -/
def Config.Consume (c : Config) (b : List ℕ) : VFRes (ℚ × ℕ) :=
  match b with
  | [] => .err .truncated
  | b0 :: _ =>
    if b0 = 0 then .ok (0, 1)
    else
      match uvarint b with
      | none => .err .invalidHeader
      | some (header, n) =>
        let sign := header % 2
        let ezPlus1 := header / 2
        if ezPlus1 = 0 then .err .invalidHeader
        else
          let ez := ezPlus1 - 1
          let e := zigZagDecode ez
          match uvarint (b.drop n) with
          | none => .err .invalidMantissa
          | some (mant, mlen) =>
            let mantMax := mantMaxForBits c.MantissaBits
            let mPrime : ℚ := if 0 < mantMax then 1 + (mant : ℚ) / (mantMax : ℚ) else 1
            let m := mPrime * (1 / 2)
            let v0 := m * (2 : ℚ) ^ e
            let v1 := if sign = 1 then -v0 else v0
            .ok (v1, n + mlen)

/-- EncodeFloat from varfloat.go: validate bits through NewConfig, then
append to a fresh buffer. -/
def EncodeFloat (v : FloatVal) (bits : ℤ) : VFRes (List ℕ) :=
  match NewConfig bits with
  | .err e => .err e
  | .ok cfg => .ok (cfg.Append [] v)

/-- DecodeFloat from varfloat.go: validate bits through NewConfig, then
consume from the buffer. -/
def DecodeFloat (b : List ℕ) (bits : ℤ) : VFRes (ℚ × ℕ) :=
  match NewConfig bits with
  | .err e => .err e
  | .ok cfg => cfg.Consume b

/-- The clamp of the rounded decode in ConsumeIntBounded:
values below lo become lo, values above hi become hi. -/
def clampI (lo hi v : ℤ) : ℤ := if v < lo then lo else if hi < v then hi else v

/-- AppendIntBounded from varfloat.go (lines 773-789): reject lo > hi, then a
value outside [lo, hi], then an invalid bit count; otherwise append the
float encoding of the value.  The int64-to-float64 conversion is modelled
exactly (it rounds nothing for magnitudes below 2^53; no claim below uses a
larger magnitude). -/
def AppendIntBounded (dst : List ℕ) (n lo hi : ℤ) (bits : ℤ) : VFRes (List ℕ) :=
  if hi < lo then .err .invalidBounds
  else if n < lo ∨ hi < n then .err .valueOutOfRange
  else
    match NewConfig bits with
    | .err e => .err e
    | .ok cfg => .ok (cfg.Append dst (.q (n : ℚ)))

/-- ConsumeIntBounded from varfloat.go (lines 796-819): reject lo > hi and an
invalid bit count, decode the float, round it to the nearest integer and
clamp the result into [lo, hi]. -/
def ConsumeIntBounded (b : List ℕ) (lo hi : ℤ) (bits : ℤ) : VFRes (ℤ × ℕ) :=
  if hi < lo then .err .invalidBounds
  else
    match NewConfig bits with
    | .err e => .err e
    | .ok cfg =>
      match cfg.Consume b with
      | .err e => .err e
      | .ok (v, n) => .ok (clampI lo hi (roundHalfAway v), n)

/-- The loop of autoBitsForWidth, written with explicit fuel: increment bits
while (1 shifted left bits) < steps and bits < 52.  The guard bits < 52
bounds the iteration count by 52, so fuel 52 reproduces the Go loop
exactly. -/
def autoBitsLoop : ℕ → ℕ → ℕ → ℕ
  | 0, bits, _ => bits
  | fuel + 1, bits, steps =>
    if 2 ^ bits < steps ∧ bits < 52 then autoBitsLoop fuel (bits + 1) steps else bits

/-- autoBitsForWidth from varfloat.go (lines 886-900): 0 for width 0, else
the smallest bit count at most 52 whose step count covers width + 1.  The
addition width + 1 is uint64 arithmetic and wraps at width = 2^64 - 1. -/
def autoBitsForWidth (width : ℕ) : ℕ :=
  if width = 0 then 0 else autoBitsLoop 52 0 ((width + 1) % 2 ^ 64)

/-- BitsForIntRange from varfloat.go (lines 908-914): reject lo > hi, else
apply autoBitsForWidth to uint64(hi - lo). -/
def BitsForIntRange (lo hi : ℤ) : VFRes ℕ :=
  if hi < lo then .err .invalidBounds
  else .ok (autoBitsForWidth (toU64 (hi - lo)))

/-- The formula stated by the spec for bitsForIntRange: the ceiling of the
base-two logarithm of hi - lo + 1, clamped into [0, 52].  This definition
follows the words of the spec, for comparison with `BitsForIntRange`, which
is translated from the source. -/
def specBitsForIntRange (lo hi : ℤ) : ℕ := min 52 (Nat.clog 2 (hi - lo + 1).toNat)

/-- The initial value of the package-level mutable variable DefaultConfig
(varfloat.go line 20). -/
def DefaultConfig : Config := ⟨10⟩

/-- SetMantissaBits (varfloat.go lines 34-41), modelled with the package
state passed explicitly: on success the state becomes the new Config, on
failure it is unchanged. -/
def SetMantissaBits (bits : ℤ) (st : Config) : VFRes Unit × Config :=
  match NewConfig bits with
  | .err e => (.err e, st)
  | .ok cfg => (.ok (), cfg)

/-- The package-level Append (varfloat.go lines 347-349): it encodes with
whatever Config the mutable DefaultConfig currently holds, passed here as
the explicit state. -/
def Append (st : Config) (dst : List ℕ) (v : FloatVal) : List ℕ :=
  Config.Append st dst v

/-- A varint encoding always holds at least one byte. -/
theorem putUvarintAux_length : ∀ (fuel x : ℕ), 1 ≤ (putUvarintAux fuel x).length := by
  intro fuel x
  cases fuel with
  | zero => simp [putUvarintAux]
  | succ f =>
    unfold putUvarintAux
    split <;> simp

/-- With fuel available, the varint encoding of a positive value starts with
a nonzero byte. -/
theorem putUvarintAux_head : ∀ (fuel x : ℕ), 0 < fuel → 0 < x →
    ∃ b t, putUvarintAux fuel x = b :: t ∧ b ≠ 0 := by
  intro fuel x hf hx
  cases fuel with
  | zero => omega
  | succ f =>
    unfold putUvarintAux
    split
    · exact ⟨x, [], rfl, by omega⟩
    · exact ⟨x % 128 + 128, putUvarintAux f (x / 128), rfl, by omega⟩

/-- Config.Append on a nonzero value, unfolded to its wire form: the header
varint followed by the mantissa varint. -/
theorem Config.Append_nonzero_eq (c : Config) (dst : List ℕ) (v : FloatVal)
    (hv : v ≠ .q 0) :
    Config.Append c dst v =
      dst ++
        (putUvarint
            (((zigZagEncode ((frexpFV v.absV).2 - 1) + 1) * 2 +
                (if v.isNegV then 1 else 0)) % 2 ^ 64) ++
          putUvarint
            (if 0 < mantMaxForBits c.MantissaBits then
              mantOf ((frexpFV v.absV).1.double) (mantMaxForBits c.MantissaBits)
            else 0)) := by
  unfold Config.Append
  rw [if_neg hv]

/-- C2: the byte 0x00 is reserved for the zero value: encoding 0.0 yields
exactly the byte 0x00 for every bit count in [0, 52], decoding that buffer
returns 0.0 with one byte consumed, and the encoding of a nonzero value is
at least two bytes long and starts with a nonzero byte.  The last part is
stated for values whose adjusted binary exponent fits comfortably in int64,
which holds for every finite float64, whose adjusted exponent lies in
[-1075, 1023]. -/
theorem C2_zero_reserved (bits : ℤ) (_hb0 : 0 ≤ bits) (_hb1 : bits ≤ 52) :
    Config.Append ⟨bits⟩ [] (.q 0) = [0] ∧
    Config.Consume ⟨bits⟩ [0] = .ok (0, 1) ∧
    (∀ x : ℚ, x ≠ 0 →
      -(2 ^ 62) < (frexpQ |x|).2 - 1 → (frexpQ |x|).2 - 1 < 2 ^ 62 →
      2 ≤ (Config.Append ⟨bits⟩ [] (.q x)).length ∧
        (Config.Append ⟨bits⟩ [] (.q x)).head? ≠ some 0) := by
  refine ⟨?_, rfl, ?_⟩
  · unfold Config.Append
    rw [if_pos rfl]
    rfl
  · intro x hx he1 he2
    have hne : (FloatVal.q x) ≠ FloatVal.q 0 := by simpa using hx
    rw [Config.Append_nonzero_eq ⟨bits⟩ [] (.q x) hne]
    simp only [FloatVal.absV, frexpFV]
    set e : ℤ := (frexpQ |x|).2 - 1 with hedef
    set s : ℕ := if (FloatVal.q x).isNegV then 1 else 0 with hsdef
    have hs : s ≤ 1 := by rw [hsdef]; split <;> omega
    have hez : zigZagEncode e + 1 ≤ 2 ^ 63 - 1 := by
      rcases le_or_lt 0 e with h | h
      · rw [zigZagEncode_nonneg e h (by omega)]
        omega
      · rw [zigZagEncode_neg e (by omega) h]
        omega
    have hlt : (zigZagEncode e + 1) * 2 + s < 2 ^ 64 := by omega
    have hpos : 0 < ((zigZagEncode e + 1) * 2 + s) % 2 ^ 64 := by
      rw [Nat.mod_eq_of_lt hlt]
      omega
    obtain ⟨hd, t, hput, hb⟩ := putUvarintAux_head 10 _ (by norm_num) hpos
    rw [show putUvarint (((zigZagEncode e + 1) * 2 + s) % 2 ^ 64) =
        putUvarintAux 10 (((zigZagEncode e + 1) * 2 + s) % 2 ^ 64) from rfl, hput]
    constructor
    · simp only [List.nil_append, List.cons_append, List.length_cons, List.length_append]
      have := putUvarintAux_length 10
        (if 0 < mantMaxForBits bits then
          mantOf (FloatVal.double (FloatVal.q (frexpQ |x|).1)) (mantMaxForBits bits)
        else 0)
      unfold putUvarint
      omega
    · simp only [List.nil_append, List.cons_append, List.head?_cons]
      intro hcontra
      exact hb (by injection hcontra)

/-- Witness for C2 at bits = 10 and the nonzero value 3. -/
theorem C2_zero_reserved_witness :
    Config.Append ⟨10⟩ [] (.q 0) = [0] ∧
    Config.Consume ⟨10⟩ [0] = .ok (0, 1) ∧
    (2 ≤ (Config.Append ⟨10⟩ [] (.q 3)).length ∧
      (Config.Append ⟨10⟩ [] (.q 3)).head? ≠ some 0) :=
  ⟨(C2_zero_reserved 10 (by decide) (by decide)).1,
   (C2_zero_reserved 10 (by decide) (by decide)).2.1,
   (C2_zero_reserved 10 (by decide) (by decide)).2.2 3 (by decide) (by decide) (by decide)⟩

/-- C10: EncodeFloat fails exactly when the bit count lies outside [0, 52];
for every float64 input — NaN and the infinities included — and every bit
count in range it succeeds with a nonempty byte sequence. -/
theorem C10_encode_totality (v : FloatVal) (bits : ℤ) :
    ((bits < 0 ∨ 52 < bits) → EncodeFloat v bits = .err .invalidBitWidth) ∧
    (0 ≤ bits → bits ≤ 52 → ∃ l, EncodeFloat v bits = .ok l ∧ l ≠ []) := by
  constructor
  · intro h
    unfold EncodeFloat NewConfig
    rw [if_pos h]
  · intro h1 h2
    unfold EncodeFloat NewConfig
    rw [if_neg (by omega)]
    refine ⟨_, rfl, ?_⟩
    by_cases hv : v = .q 0
    · subst hv
      unfold Config.Append
      rw [if_pos rfl]
      simp
    · rw [Config.Append_nonzero_eq ⟨bits⟩ [] v hv]
      intro hcontra
      have h3 := putUvarintAux_length 10
        (((zigZagEncode ((frexpFV v.absV).2 - 1) + 1) * 2 +
          (if v.isNegV then 1 else 0)) % 2 ^ 64)
      rw [List.nil_append] at hcontra
      have h4 := List.append_eq_nil.mp hcontra
      have h5 : (putUvarint
          (((zigZagEncode ((frexpFV v.absV).2 - 1) + 1) * 2 +
            (if v.isNegV then 1 else 0)) % 2 ^ 64)).length = 0 := by
        rw [h4.1]
        rfl
      unfold putUvarint at h5
      omega

/-- Witness for C10 at the NaN input with bits = 0. -/
theorem C10_encode_totality_witness :
    ∃ l, EncodeFloat .nan 0 = .ok l ∧ l ≠ [] :=
  (C10_encode_totality .nan 0).2 (by decide) (by decide)

/-- C1: the claim asserts that decoding the encoding of a finite nonzero v
with the same bit count has relative error at most 2 ^ (-bits) plus a small
slack, and is exact for powers of two at bits = 0.  The code refutes it:
Config.Consume rebuilds the value with exponent e instead of e + 1, so the
value 1.0 encoded with 10 mantissa bits (an exact computation, no float64
rounding occurs on this trace) decodes to 0.5 — relative error 1/2, far
above 2 ^ (-10) even with slack 1/4 — and the power of two 1.0 is likewise
halved at bits = 0. -/
theorem C1_relative_error_bound_fails :
    EncodeFloat (.q 1) 10 = .ok [2, 0] ∧
    DecodeFloat [2, 0] 10 = .ok (1 / 2, 2) ∧
    ¬ (|(1 : ℚ) / 2 - 1| / |(1 : ℚ)| ≤ 1 / 2 ^ 10 + 1 / 4) ∧
    EncodeFloat (.q 1) 0 = .ok [2, 0] ∧
    DecodeFloat [2, 0] 0 = .ok (1 / 2, 2) ∧ ((1 : ℚ) / 2 ≠ 1) := by
  refine ⟨by decide, by decide, by decide, by decide, by decide, by decide⟩

/-- C4: the claim asserts that with bits = BitsForIntRange(lo, hi) the
bounded-integer codec returns the endpoints exactly.  The code refutes it:
for the range [0, 8], BitsForIntRange gives 4, and the endpoint 8 encodes
to the bytes 14, 0 but decodes to 4 (every float64 operation on this trace
is exact, since 8 is a power of two and the quantized mantissa is 0). -/
theorem C4_bounded_roundtrip_fails :
    BitsForIntRange 0 8 = .ok 4 ∧
    AppendIntBounded [] 8 0 8 4 = .ok [14, 0] ∧
    ConsumeIntBounded [14, 0] 0 8 4 = .ok (4, 2) ∧ (4 : ℤ) ≠ 8 := by
  refine ⟨by decide, by decide, by decide, by decide⟩

/-- The clamp always lands inside a nonempty range. -/
theorem clampI_mem (lo hi v : ℤ) (h : lo ≤ hi) : lo ≤ clampI lo hi v ∧ clampI lo hi v ≤ hi := by
  unfold clampI
  split_ifs <;> omega

/-- C6: whenever ConsumeIntBounded returns without error, under the stated
preconditions, the returned integer is exactly the decoded float rounded to
the nearest integer and clamped into [lo, hi], hence always inside the
range; and decoding never fails for a range reason — every successful
Config.Consume yields a successful ConsumeIntBounded. -/
theorem C6_consume_int_bounded_clamps (b : List ℕ) (lo hi bits : ℤ)
    (_hbytes : ∀ y ∈ b, y < 256) (hlh : lo ≤ hi) (hb0 : 0 ≤ bits) (hb1 : bits ≤ 52) :
    (∀ r n, ConsumeIntBounded b lo hi bits = .ok (r, n) →
      ∃ v, Config.Consume ⟨bits⟩ b = .ok (v, n) ∧
        r = clampI lo hi (roundHalfAway v) ∧ lo ≤ r ∧ r ≤ hi) ∧
    (∀ v n, Config.Consume ⟨bits⟩ b = .ok (v, n) →
      ConsumeIntBounded b lo hi bits = .ok (clampI lo hi (roundHalfAway v), n)) := by
  have hred : ConsumeIntBounded b lo hi bits =
      match Config.Consume ⟨bits⟩ b with
      | .err e => .err e
      | .ok (v, n) => .ok (clampI lo hi (roundHalfAway v), n) := by
    unfold ConsumeIntBounded NewConfig
    rw [if_neg (by omega), if_neg (by omega)]
  constructor
  · intro r n h
    rw [hred] at h
    cases hc : Config.Consume ⟨bits⟩ b with
    | err e =>
      rw [hc] at h
      exact absurd h (by simp)
    | ok p =>
      obtain ⟨v, m⟩ := p
      rw [hc] at h
      simp only [VFRes.ok.injEq, Prod.mk.injEq] at h
      obtain ⟨hr, hm⟩ := h
      refine ⟨v, by rw [hm], hr.symm, ?_, ?_⟩
      · rw [← hr]
        exact (clampI_mem lo hi (roundHalfAway v) hlh).1
      · rw [← hr]
        exact (clampI_mem lo hi (roundHalfAway v) hlh).2
  · intro v n h
    rw [hred, h]

/-- Witness for C6: the buffer 2, 0 decodes to the value one half, which is
rounded to 1 and kept by the clamp into [0, 10]. -/
theorem C6_consume_int_bounded_clamps_witness :
    ConsumeIntBounded [2, 0] 0 10 4 = .ok (clampI 0 10 (roundHalfAway (1 / 2)), 2) :=
  (C6_consume_int_bounded_clamps [2, 0] 0 10 4 (by decide) (by decide) (by decide)
    (by decide)).2 (1 / 2) 2 (by decide)

/-- C7: AppendIntBounded fails with the bounds error when lo > hi, with the
out-of-range error when the value lies outside [lo, hi], with the bit-width
error when bits lies outside [0, 52] — in that order of precedence — and on
every input satisfying all three preconditions it succeeds, appending the
float encoding of the value. -/
theorem C7_append_int_bounded_contract (dst : List ℕ) (n lo hi bits : ℤ) :
    (hi < lo → AppendIntBounded dst n lo hi bits = .err .invalidBounds) ∧
    (lo ≤ hi → (n < lo ∨ hi < n) →
      AppendIntBounded dst n lo hi bits = .err .valueOutOfRange) ∧
    (lo ≤ hi → lo ≤ n → n ≤ hi → (bits < 0 ∨ 52 < bits) →
      AppendIntBounded dst n lo hi bits = .err .invalidBitWidth) ∧
    (lo ≤ hi → lo ≤ n → n ≤ hi → 0 ≤ bits → bits ≤ 52 →
      AppendIntBounded dst n lo hi bits = .ok (Config.Append ⟨bits⟩ dst (.q (n : ℚ)))) := by
  refine ⟨?_, ?_, ?_, ?_⟩
  · intro h
    unfold AppendIntBounded
    rw [if_pos h]
  · intro h1 h2
    unfold AppendIntBounded
    rw [if_neg (by omega), if_pos h2]
  · intro h1 h2 h3 h4
    unfold AppendIntBounded NewConfig
    rw [if_neg (by omega), if_neg (by omega), if_pos h4]
  · intro h1 h2 h3 h4 h5
    unfold AppendIntBounded NewConfig
    rw [if_neg (by omega), if_neg (by omega), if_neg (by omega)]

/-- Witness for C7 on all four branches, including the error-propagation
examples of the spec (bounds 10, 5 and value 100 in [0, 10]). -/
theorem C7_append_int_bounded_contract_witness :
    AppendIntBounded [] 7 10 5 8 = .err .invalidBounds ∧
    AppendIntBounded [] 100 0 10 8 = .err .valueOutOfRange ∧
    AppendIntBounded [] 5 0 10 53 = .err .invalidBitWidth ∧
    AppendIntBounded [] 8 0 8 4 = .ok (Config.Append ⟨4⟩ [] (.q 8)) :=
  ⟨(C7_append_int_bounded_contract [] 7 10 5 8).1 (by decide),
   (C7_append_int_bounded_contract [] 100 0 10 8).2.1 (by decide) (by decide),
   (C7_append_int_bounded_contract [] 5 0 10 53).2.2.1 (by decide) (by decide) (by decide)
     (by decide),
   (C7_append_int_bounded_contract [] 8 0 8 4).2.2.2 (by decide) (by decide) (by decide)
     (by decide) (by decide)⟩

/-- C8: DecodeFloat fails with the bit-width error for bits outside [0, 52];
with bits in range it fails on an empty buffer (truncation), on a malformed
or missing header varint, on the reserved header whose exponent field is
zero, and on a malformed or missing mantissa varint; a leading zero byte
decodes as the zero value, and on every other input it succeeds and returns
a value together with the bytes consumed. -/
theorem C8_decode_float_contract (b : List ℕ) (bits : ℤ) (_hbytes : ∀ y ∈ b, y < 256) :
    ((bits < 0 ∨ 52 < bits) → DecodeFloat b bits = .err .invalidBitWidth) ∧
    (0 ≤ bits → bits ≤ 52 →
      (b = [] → DecodeFloat b bits = .err .truncated) ∧
      (∀ b0 t, b = b0 :: t →
        (b0 = 0 → DecodeFloat b bits = .ok (0, 1)) ∧
        (b0 ≠ 0 →
          (uvarint b = none → DecodeFloat b bits = .err .invalidHeader) ∧
          (∀ hd n, uvarint b = some (hd, n) →
            (hd / 2 = 0 → DecodeFloat b bits = .err .invalidHeader) ∧
            (hd / 2 ≠ 0 →
              (uvarint (b.drop n) = none → DecodeFloat b bits = .err .invalidMantissa) ∧
              (∀ mt ml, uvarint (b.drop n) = some (mt, ml) →
                ∃ v, DecodeFloat b bits = .ok (v, n + ml))))))) := by
  constructor
  · intro h
    unfold DecodeFloat NewConfig
    rw [if_pos h]
  · intro h1 h2
    have hcfg : DecodeFloat b bits = Config.Consume ⟨bits⟩ b := by
      unfold DecodeFloat NewConfig
      rw [if_neg (by omega)]
    rw [hcfg]
    constructor
    · intro hb
      subst hb
      rfl
    · intro b0 t hb
      subst hb
      constructor
      · intro h0
        subst h0
        rfl
      · intro h0
        simp only [Config.Consume]
        rw [if_neg h0]
        constructor
        · intro hu
          simp only [hu]
        · intro hd n hu
          simp only [hu]
          constructor
          · intro hz
            rw [if_pos hz]
          · intro hz
            rw [if_neg hz]
            constructor
            · intro hm
              simp only [hm]
            · intro mt ml hm
              simp only [hm]
              exact ⟨_, rfl⟩

/-- Witness for C8 on each branch: an out-of-range bit count, an empty
buffer, the zero sentinel, the reserved header byte 1, a dangling
continuation byte, a missing mantissa varint, and a complete two-byte
encoding. -/
theorem C8_decode_float_contract_witness :
    DecodeFloat [2, 0] 53 = .err .invalidBitWidth ∧
    DecodeFloat [] 10 = .err .truncated ∧
    DecodeFloat [0] 10 = .ok (0, 1) ∧
    DecodeFloat [1, 0] 10 = .err .invalidHeader ∧
    DecodeFloat [128] 10 = .err .invalidHeader ∧
    DecodeFloat [2] 10 = .err .invalidMantissa ∧
    (∃ v, DecodeFloat [2, 0] 10 = .ok (v, 2)) :=
  ⟨(C8_decode_float_contract [2, 0] 53 (by decide)).1 (by decide),
   ((C8_decode_float_contract [] 10 (by decide)).2 (by decide) (by decide)).1 rfl,
   ((((C8_decode_float_contract [0] 10 (by decide)).2 (by decide) (by decide)).2 0 []
     rfl).1 rfl),
   (((((C8_decode_float_contract [1, 0] 10 (by decide)).2 (by decide) (by decide)).2 1 [0]
     rfl).2 (by decide)).2 1 1 (by decide)).1 (by decide),
   ((((C8_decode_float_contract [128] 10 (by decide)).2 (by decide) (by decide)).2 128 []
     rfl).2 (by decide)).1 (by decide),
   ((((((C8_decode_float_contract [2] 10 (by decide)).2 (by decide) (by decide)).2 2 []
     rfl).2 (by decide)).2 2 1 (by decide)).2 (by decide)).1 (by decide),
   ((((((C8_decode_float_contract [2, 0] 10 (by decide)).2 (by decide) (by decide)).2 2 [0]
     rfl).2 (by decide)).2 2 1 (by decide)).2 (by decide)).2 0 1 (by decide)⟩

/-- The bit-search loop computes the base-two ceiling logarithm of the step
count, capped at 52. -/
theorem autoBitsLoop_eq : ∀ (fuel bits steps : ℕ), 1 ≤ steps → bits + fuel = 52 →
    (∀ j, j < bits → 2 ^ j < steps) →
    autoBitsLoop fuel bits steps = min 52 (Nat.clog 2 steps) := by
  intro fuel
  induction fuel with
  | zero =>
    intro bits steps hs hsum hj
    have hb : bits = 52 := by omega
    subst hb
    have h51 : 2 ^ 51 < steps := hj 51 (by norm_num)
    have hcl : 51 < Nat.clog 2 steps := (Nat.pow_lt_iff_lt_clog (by norm_num)).1 h51
    simp only [autoBitsLoop]
    omega
  | succ fuel ih =>
    intro bits steps hs hsum hj
    unfold autoBitsLoop
    split
    · rename_i h
      rw [ih (bits + 1) steps hs (by omega) ?_]
      intro j hjlt
      rcases Nat.lt_or_ge j bits with hcase | hcase
      · exact hj j hcase
      · have : j = bits := by omega
        subst this
        exact h.1
    · rename_i h
      have hblt : bits < 52 := by omega
      have hsle : steps ≤ 2 ^ bits := by
        by_contra hc
        push_neg at hc
        exact h ⟨hc, hblt⟩
      have hup : Nat.clog 2 steps ≤ bits := (Nat.le_pow_iff_clog_le (by norm_num)).1 hsle
      have hlow : bits ≤ Nat.clog 2 steps := by
        cases bits with
        | zero => omega
        | succ k =>
          have hk := hj k (by omega)
          have := (Nat.pow_lt_iff_lt_clog (by norm_num)).1 hk
          omega
      omega

/-- C5 counterexample: at the full int64 range the step count width + 1
wraps to 0 in uint64, so BitsForIntRange returns 0, while the formula of
the claim — ceiling log2 of the range size, clamped into [0, 52] — gives
52. -/
theorem C5_full_range_overflow :
    BitsForIntRange (-(2 ^ 63)) (2 ^ 63 - 1) = .ok 0 ∧
    specBitsForIntRange (-(2 ^ 63)) (2 ^ 63 - 1) = 52 ∧ (0 : ℕ) ≠ 52 := by
  refine ⟨by decide, ?_, by decide⟩
  unfold specBitsForIntRange
  have h1 : ((2 ^ 63 - 1 : ℤ) - -(2 ^ 63) + 1).toNat = 2 ^ 64 := by decide
  rw [h1, Nat.clog_pow 2 64 (by norm_num)]
  decide

/-- C5 as amended: BitsForIntRange fails exactly when lo > hi, and on every
int64 pair lo ≤ hi except the single full-range pair (whose uint64 step
count overflows to 0) it returns the ceiling of log2(hi - lo + 1) clamped
into [0, 52]. -/
theorem C5_bits_for_int_range (lo hi : ℤ) :
    (hi < lo → BitsForIntRange lo hi = .err .invalidBounds) ∧
    (-(2 ^ 63) ≤ lo → hi < 2 ^ 63 → lo ≤ hi → hi - lo < 2 ^ 64 - 1 →
      BitsForIntRange lo hi = .ok (specBitsForIntRange lo hi)) := by
  constructor
  · intro h
    unfold BitsForIntRange
    rw [if_pos h]
  · intro h1 h2 h3 h4
    unfold BitsForIntRange
    rw [if_neg (by omega)]
    have hw : toU64 (hi - lo) = (hi - lo).toNat := by
      unfold toU64
      omega
    rw [hw]
    unfold autoBitsForWidth specBitsForIntRange
    by_cases h0 : (hi - lo).toNat = 0
    · rw [if_pos h0]
      have hone : (hi - lo + 1).toNat = 1 := by omega
      rw [hone, Nat.clog_one_right]
      norm_num
    · rw [if_neg h0]
      have hmod : ((hi - lo).toNat + 1) % 2 ^ 64 = (hi - lo).toNat + 1 := by
        apply Nat.mod_eq_of_lt
        omega
      rw [hmod]
      rw [autoBitsLoop_eq 52 0 _ (by omega) (by omega) (by intro j hj; omega)]
      have hcast : (hi - lo + 1).toNat = (hi - lo).toNat + 1 := by omega
      rw [hcast]

/-- Witness for C5 on both branches: an inverted pair fails with the bounds
error, and on the range [0, 1000] the advisor returns the spec formula,
whose value is 10. -/
theorem C5_bits_for_int_range_witness :
    BitsForIntRange 3 1 = .err .invalidBounds ∧
    BitsForIntRange 0 1000 = .ok (specBitsForIntRange 0 1000) ∧
    specBitsForIntRange 0 1000 = 10 := by
  refine ⟨(C5_bits_for_int_range 3 1).1 (by decide),
    (C5_bits_for_int_range 0 1000).2 (by decide) (by decide) (by decide) (by decide), ?_⟩
  unfold specBitsForIntRange
  have h1 : Nat.clog 2 1001 ≤ 10 := (Nat.le_pow_iff_clog_le (by norm_num)).1 (by norm_num)
  have h2 : 9 < Nat.clog 2 1001 := (Nat.pow_lt_iff_lt_clog (by norm_num)).1 (by norm_num)
  have h3 : ((1000 : ℤ) - 0 + 1).toNat = 1001 := by decide
  rw [h3]
  omega

/-- C9 counterexample: the claim asserts that no package-level mutable
default mantissa-bit setting influences encoding.  The package variable
DefaultConfig, mutated by SetMantissaBits, refutes it: after a successful
SetMantissaBits 16 the package-level Append returns different bytes for the
same explicit arguments than it does in the initial state with 10 bits. -/
theorem C9_default_config_influences_append :
    (SetMantissaBits 16 DefaultConfig).1 = .ok () ∧
    Append (SetMantissaBits 16 DefaultConfig).2 [] (.q (3 / 2)) = [2, 128, 128, 2] ∧
    Append DefaultConfig [] (.q (3 / 2)) = [2, 128, 4] ∧
    Append (SetMantissaBits 16 DefaultConfig).2 [] (.q (3 / 2)) ≠
      Append DefaultConfig [] (.q (3 / 2)) := by
  refine ⟨by decide, by decide, by decide, by decide⟩

/-- C9 as amended: the Config-parameterized core operations depend only on
their explicit arguments — the package-level Append is exactly
Config.Append applied to the state it reads — but the package does expose
the mutable DefaultConfig, whose mutation through SetMantissaBits changes
the bytes returned by the package-level Append for identical explicit
arguments. -/
theorem C9_default_config_amended :
    (∀ (st : Config) (dst : List ℕ) (v : FloatVal), Append st dst v = Config.Append st dst v) ∧
    (SetMantissaBits 16 DefaultConfig).2.MantissaBits = 16 ∧
    Append (SetMantissaBits 16 DefaultConfig).2 [] (.q (3 / 2)) ≠
      Append DefaultConfig [] (.q (3 / 2)) :=
  ⟨fun _ _ _ => rfl, by decide, by decide⟩

end VarFloat
